import Mathlib

/-
Verification of the ZoneJS mini-framework.

Part 1 embeds the reactive core (src/reactivity.js): signals created by
createState, the effect scheduler, and the batch controller.  The module
level mutable variables currentEffect / batchQueue / isBatching become
fields of an explicit state record.  User callbacks (the fn arguments of
effect and batch, and sequences of get/set calls) are embedded as a small
command language Cmd; the interpreter runCmd is fuel-indexed (returning
none when the fuel runs out) because a signal write can rerun effects
whose bodies write signals again.  A JS exception is modelled as a Bool
flag (true = the callback threw), mirroring try/finally control flow.

Part 2 embeds the DOM layer (core.js / dom.js): the Vnode description
constructor and the patch / reconcileChildren family, over a DOM store of
retained nodes addressed by numeric ids (so node identity is id equality).
-/

namespace ZoneJS

/-- Trace events: instrumentation of the interpreter.  writeEv is logged
when a set call actually stores a new value, runEv when an effect body is
invoked, restoreEv when the finally block of batch executes the statement
that puts the previous batchQueue back (batchQueue = prevQueue). -/
inductive Ev where
  | writeEv (s : Nat) (v : Int)
  | runEv (e : Nat)
  | restoreEv
deriving DecidableEq, Repr

/-- A reactive cell from createState: the closed-over value and the
listeners Set (JS Set iterates in insertion order, so it is a
duplicate-free list). -/
structure Signal where
  value : Int
  listeners : List Nat
deriving DecidableEq, Repr

/-- The user-callback language: everything a callback handed to effect or
batch can do to the reactive core.  get/set are the two closures returned
by createState (signals are numbered in creation order), effect and batch
are the exported entry points, throwJS models the callback raising. -/
inductive Cmd where
  | skip
  | seq (a b : Cmd)
  | get (s : Nat)
  | set (s : Nat) (v : Int)
  | batch (c : Cmd)
  | effect (body : Cmd)
  | createState (v : Int)
  | throwJS
deriving DecidableEq, Repr

/-- The module-level mutable state of reactivity.js plus the signal store,
the bodies of created effects (an effect's identity is its index), and the
instrumentation trace. -/
structure RState where
  currentEffect : Option Nat
  batchQueue : List Nat
  isBatching : Bool
  signals : List Signal
  effectBodies : List Cmd
  trace : List Ev
deriving DecidableEq, Repr

/-- JS Set.add: append if not already present (Set preserves insertion
order). -/
def jsSetAdd (l : List Nat) (e : Nat) : List Nat :=
  if e ∈ l then l else l ++ [e]

/-- JS new Set(list) spread back to an array: deduplicate keeping the
first occurrence of each element, in order. -/
def jsSetOfList (l : List Nat) : List Nat :=
  l.foldl jsSetAdd []

/-- The get closure of createState: if an effect is running, add it to
this signal's listeners; reading has no other effect on the store. -/
def doRead (s : Nat) (st : RState) : RState :=
  match st.signals[s]? with
  | none => st
  | some sig =>
    match st.currentEffect with
    | none => st
    | some e =>
      { st with signals := st.signals.set s { sig with listeners := jsSetAdd sig.listeners e } }

/-- The execute closure built by effect(fn): set the cursor, log the run,
run the body, and clear the cursor only on normal completion (the source
has no try/finally here, so a throwing body leaves the cursor set).
rc is the interpreter for the body at the remaining fuel. -/
def runEffectW (rc : Cmd → RState → Option (RState × Bool)) (id : Nat) (st : RState) :
    Option (RState × Bool) :=
  let body := st.effectBodies.getD id Cmd.skip
  let st1 := { st with currentEffect := some id, trace := st.trace ++ [Ev.runEv id] }
  match rc body st1 with
  | none => none
  | some (st2, true) => some (st2, true)
  | some (st2, false) => some ({ st2 with currentEffect := none }, false)

/-- forEach over a list of effects calling each one: an exception aborts
the iteration and propagates. -/
def runEffectListW (rc : Cmd → RState → Option (RState × Bool)) :
    List Nat → RState → Option (RState × Bool)
  | [], st => some (st, false)
  | id :: ids, st =>
    match runEffectW rc id st with
    | none => none
    | some (st1, true) => some (st1, true)
    | some (st1, false) => runEffectListW rc ids st1

/-- The finally block of batch: isBatching = false, deduplicate the queue,
restore the previous queue (logged as restoreEv), then rerun the unique
effects; th is whether the batch body threw, and the overall call throws
if the body or the flush threw. -/
def runFinallyW (rc : Cmd → RState → Option (RState × Bool)) (prevQ : List Nat)
    (st : RState) (th : Bool) : Option (RState × Bool) :=
  let uniq := jsSetOfList st.batchQueue
  let st1 := { st with isBatching := false, batchQueue := prevQ,
                       trace := st.trace ++ [Ev.restoreEv] }
  match runEffectListW rc uniq st1 with
  | none => none
  | some (st2, th2) => some (st2, th || th2)

/-- The interpreter for callbacks, tying the recursive knot on fuel.
Each branch mirrors the corresponding source function: set is the setter
of createState (strict-equality no-op check, then either enqueue into the
open batch or notify through an implicit batch), batch is the exported
batch (flat when already batching, otherwise open/run/finally), and
effect appends a fresh body and invokes its execute once. -/
def runCmd : Nat → Cmd → RState → Option (RState × Bool)
  | 0, _, _ => none
  | fuel + 1, c, st =>
    match c with
    | .skip => some (st, false)
    | .throwJS => some (st, true)
    | .seq a b =>
      match runCmd fuel a st with
      | none => none
      | some (st1, true) => some (st1, true)
      | some (st1, false) => runCmd fuel b st1
    | .get s => some (doRead s st, false)
    | .set s v =>
      match st.signals[s]? with
      | none => some (st, false)
      | some sig =>
        if sig.value = v then some (st, false)
        else
          let st1 := { st with signals := st.signals.set s { sig with value := v },
                               trace := st.trace ++ [Ev.writeEv s v] }
          if st1.isBatching then
            some ({ st1 with batchQueue := st1.batchQueue ++ sig.listeners }, false)
          else
            let prevQ := st1.batchQueue
            let st2 := { st1 with isBatching := true, batchQueue := [] }
            match runEffectListW (runCmd fuel) sig.listeners st2 with
            | none => none
            | some (st3, th) => runFinallyW (runCmd fuel) prevQ st3 th
    | .batch c1 =>
      if st.isBatching then runCmd fuel c1 st
      else
        let prevQ := st.batchQueue
        let st1 := { st with isBatching := true, batchQueue := [] }
        match runCmd fuel c1 st1 with
        | none => none
        | some (st2, th) => runFinallyW (runCmd fuel) prevQ st2 th
    | .effect body =>
      let id := st.effectBodies.length
      let st1 := { st with effectBodies := st.effectBodies ++ [body] }
      runEffectW (runCmd fuel) id st1
    | .createState v =>
      some ({ st with signals := st.signals ++ [{ value := v, listeners := [] }] }, false)

/-- Monotonicity relation between interpreter states: every signal keeps
its slot, its listener set can only grow, and the trace is only appended
to. -/
def presMono (st st2 : RState) : Prop :=
  (∀ (s : Nat) (sig : Signal), st.signals[s]? = some sig →
      ∃ sig2, st2.signals[s]? = some sig2 ∧ sig.listeners ⊆ sig2.listeners) ∧
  (∃ t, st2.trace = st.trace ++ t)

theorem presMono_refl (st : RState) : presMono st st :=
  ⟨fun _ sig h => ⟨sig, h, fun _ hx => hx⟩, [], by simp⟩

theorem presMono_trans {st1 st2 st3 : RState} (h1 : presMono st1 st2)
    (h2 : presMono st2 st3) : presMono st1 st3 := by
  obtain ⟨hs1, t1, ht1⟩ := h1
  obtain ⟨hs2, t2, ht2⟩ := h2
  refine ⟨fun s sig h => ?_, t1 ++ t2, by simp [ht2, ht1]⟩
  obtain ⟨sig2, h2a, h2b⟩ := hs1 s sig h
  obtain ⟨sig3, h3a, h3b⟩ := hs2 s sig2 h2a
  exact ⟨sig3, h3a, fun x hx => h3b (h2b hx)⟩

/-- A state whose signals are unchanged and whose trace is an extension is
monotone. -/
theorem presMono_ofParts {st st2 : RState} (hsig : st2.signals = st.signals)
    (htr : ∃ t, st2.trace = st.trace ++ t) : presMono st st2 :=
  ⟨fun _ sig h => ⟨sig, by rw [hsig]; exact h, fun _ hx => hx⟩, htr⟩

theorem jsSetAdd_subset (l : List Nat) (e : Nat) : l ⊆ jsSetAdd l e := by
  unfold jsSetAdd
  split
  · exact fun _ hx => hx
  · exact fun x hx => List.mem_append_left _ hx

theorem mem_jsSetAdd (l : List Nat) (e : Nat) : e ∈ jsSetAdd l e := by
  unfold jsSetAdd
  split
  · assumption
  · simp

theorem doRead_mono (s : Nat) (st : RState) : presMono st (doRead s st) := by
  unfold doRead
  cases hget : st.signals[s]? with
  | none => exact presMono_refl st
  | some sig =>
    cases hcur : st.currentEffect with
    | none => exact presMono_refl st
    | some e =>
      refine ⟨fun s2 sig2 h2 => ?_, [], by simp⟩
      by_cases hss : s = s2
      · subst hss
        rw [hget] at h2
        cases h2
        have hlt : s < st.signals.length := (List.getElem?_eq_some.mp hget).1
        exact ⟨_, List.getElem?_set_eq_of_lt _ hlt, jsSetAdd_subset _ _⟩
      · exact ⟨sig2, by rw [List.getElem?_set_ne hss]; exact h2, fun _ hx => hx⟩

theorem runEffectW_mono (rc : Cmd → RState → Option (RState × Bool))
    (hrc : ∀ c st r, rc c st = some r → presMono st r.1) (id : Nat) (st : RState)
    (r : RState × Bool) (h : runEffectW rc id st = some r) : presMono st r.1 := by
  simp only [runEffectW] at h
  have hstep : presMono st { st with currentEffect := some id, trace := st.trace ++ [Ev.runEv id] } :=
    presMono_ofParts rfl ⟨[Ev.runEv id], rfl⟩
  cases hbody : rc (st.effectBodies.getD id Cmd.skip) { st with currentEffect := some id, trace := st.trace ++ [Ev.runEv id] } with
  | none => rw [hbody] at h; cases h
  | some r2 =>
    obtain ⟨st2, th⟩ := r2
    have hmid := presMono_trans hstep (hrc _ _ _ hbody)
    rw [hbody] at h
    cases th with
    | true => cases h; exact hmid
    | false =>
      cases h
      exact presMono_trans hmid (presMono_ofParts rfl ⟨[], by simp⟩)

theorem runEffectListW_mono (rc : Cmd → RState → Option (RState × Bool))
    (hrc : ∀ c st r, rc c st = some r → presMono st r.1) :
    ∀ (ids : List Nat) (st : RState) (r : RState × Bool),
      runEffectListW rc ids st = some r → presMono st r.1 := by
  intro ids
  induction ids with
  | nil =>
    intro st r h
    unfold runEffectListW at h
    cases h
    exact presMono_refl st
  | cons id ids ih =>
    intro st r h
    simp only [runEffectListW] at h
    cases heff : runEffectW rc id st with
    | none => rw [heff] at h; cases h
    | some r1 =>
      obtain ⟨st1, th⟩ := r1
      have h1 := runEffectW_mono rc hrc id st _ heff
      rw [heff] at h
      cases th with
      | true => cases h; exact h1
      | false => exact presMono_trans h1 (ih st1 r h)

theorem runFinallyW_mono (rc : Cmd → RState → Option (RState × Bool))
    (hrc : ∀ c st r, rc c st = some r → presMono st r.1) (prevQ : List Nat)
    (st : RState) (th : Bool) (r : RState × Bool)
    (h : runFinallyW rc prevQ st th = some r) : presMono st r.1 := by
  simp only [runFinallyW] at h
  have hstep : presMono st { st with isBatching := false, batchQueue := prevQ, trace := st.trace ++ [Ev.restoreEv] } :=
    presMono_ofParts rfl ⟨[Ev.restoreEv], rfl⟩
  cases hlist : runEffectListW rc (jsSetOfList st.batchQueue) { st with isBatching := false, batchQueue := prevQ, trace := st.trace ++ [Ev.restoreEv] } with
  | none => rw [hlist] at h; cases h
  | some r2 =>
    obtain ⟨st2, th2⟩ := r2
    rw [hlist] at h
    cases h
    exact presMono_trans hstep (runEffectListW_mono rc hrc _ _ (st2, th2) hlist)

/-- Interpreter runs only ever extend signal listener sets and the trace. -/
theorem runCmd_mono : ∀ (fuel : Nat) (c : Cmd) (st : RState) (r : RState × Bool),
    runCmd fuel c st = some r → presMono st r.1 := by
  intro fuel
  induction fuel with
  | zero => intro c st r h; cases h
  | succ fuel ih =>
    intro c st r h
    cases c with
    | skip => cases h; exact presMono_refl st
    | throwJS => cases h; exact presMono_refl st
    | seq a b =>
      simp only [runCmd] at h
      cases hA : runCmd fuel a st with
      | none => rw [hA] at h; cases h
      | some r1 =>
        obtain ⟨st1, th⟩ := r1
        rw [hA] at h
        have h1 := ih a st _ hA
        cases th with
        | true => cases h; exact h1
        | false => exact presMono_trans h1 (ih b st1 r h)
    | get s => cases h; exact doRead_mono s st
    | set s v =>
      simp only [runCmd] at h
      cases hget : st.signals[s]? with
      | none => simp only [hget] at h; cases h; exact presMono_refl st
      | some sig =>
        simp only [hget] at h
        by_cases heq : sig.value = v
        · rw [if_pos heq] at h; cases h; exact presMono_refl st
        · rw [if_neg heq] at h
          have hlt : s < st.signals.length := (List.getElem?_eq_some.mp hget).1
          have hsigs : ∀ (s2 : Nat) (sig2 : Signal), st.signals[s2]? = some sig2 →
              ∃ sig3, (st.signals.set s { sig with value := v })[s2]? = some sig3 ∧
                sig2.listeners ⊆ sig3.listeners := by
            intro s2 sig2 h2
            by_cases hss : s = s2
            · subst hss
              rw [hget] at h2
              cases h2
              exact ⟨_, List.getElem?_set_eq_of_lt _ hlt, fun x hx => hx⟩
            · exact ⟨sig2, by rw [List.getElem?_set_ne hss]; exact h2, fun _ hx => hx⟩
          by_cases hb : st.isBatching = true
          · rw [if_pos hb] at h
            cases h
            exact ⟨hsigs, [Ev.writeEv s v], rfl⟩
          · rw [if_neg hb] at h
            cases hlist : runEffectListW (runCmd fuel) sig.listeners { st with signals := st.signals.set s { sig with value := v }, trace := st.trace ++ [Ev.writeEv s v], isBatching := true, batchQueue := [] } with
            | none => rw [hlist] at h; cases h
            | some r3 =>
              obtain ⟨st3, th3⟩ := r3
              rw [hlist] at h
              have h3 := runEffectListW_mono (runCmd fuel) (ih) _ _ _ hlist
              have hstep2 : presMono st { st with signals := st.signals.set s { sig with value := v }, trace := st.trace ++ [Ev.writeEv s v], isBatching := true, batchQueue := [] } :=
                ⟨hsigs, [Ev.writeEv s v], rfl⟩
              exact presMono_trans (presMono_trans hstep2 h3)
                (runFinallyW_mono (runCmd fuel) ih _ _ _ _ h)
    | batch c1 =>
      simp only [runCmd] at h
      by_cases hb : st.isBatching = true
      · rw [if_pos hb] at h
        exact ih c1 st r h
      · rw [if_neg hb] at h
        cases hrun : runCmd fuel c1 { st with isBatching := true, batchQueue := [] } with
        | none => rw [hrun] at h; cases h
        | some r2 =>
          obtain ⟨st2, th2⟩ := r2
          rw [hrun] at h
          have h2 := ih c1 _ _ hrun
          have hstep : presMono st { st with isBatching := true, batchQueue := [] } :=
            presMono_ofParts rfl ⟨[], by simp⟩
          exact presMono_trans (presMono_trans hstep h2)
            (runFinallyW_mono (runCmd fuel) ih _ _ _ _ h)
    | effect body =>
      simp only [runCmd] at h
      have hstep : presMono st { st with effectBodies := st.effectBodies ++ [body] } :=
        presMono_ofParts rfl ⟨[], by simp⟩
      exact presMono_trans hstep (runEffectW_mono (runCmd fuel) ih _ _ _ h)
    | createState v =>
      cases h
      refine ⟨fun s2 sig2 h2 => ?_, [], by simp⟩
      have hlt : s2 < st.signals.length := (List.getElem?_eq_some.mp h2).1
      exact ⟨sig2, by rw [List.getElem?_append_left hlt]; exact h2, fun _ hx => hx⟩

/-- A setter call whose argument is strictly equal to the stored value
returns immediately: the resulting state is the input state itself. -/
theorem set_noop (fuel : Nat) (st : RState) (s : Nat) (v : Int) (sig : Signal)
    (hs : st.signals[s]? = some sig) (heq : sig.value = v) :
    runCmd (fuel + 1) (.set s v) st = some (st, false) := by
  simp only [runCmd, hs, heq, if_true]

/-- A value-changing setter call while a batch is open: store the value,
log the write, and enqueue every current listener (duplicates allowed)
into the pending batch queue; nothing is rerun. -/
theorem set_batched (fuel : Nat) (st : RState) (s : Nat) (v : Int) (sig : Signal)
    (hs : st.signals[s]? = some sig) (hne : sig.value ≠ v) (hb : st.isBatching = true) :
    runCmd (fuel + 1) (.set s v) st =
      some ({ st with signals := st.signals.set s { sig with value := v },
                      trace := st.trace ++ [Ev.writeEv s v],
                      batchQueue := st.batchQueue ++ sig.listeners }, false) := by
  simp only [runCmd, hs, hb]
  rw [if_neg hne]
  simp

/-- When a forEach over effects completes without an exception, every
effect in the list was invoked: its runEv is in the appended trace. -/
theorem runEffectListW_runs (rc : Cmd → RState → Option (RState × Bool))
    (hrc : ∀ c st r, rc c st = some r → presMono st r.1) :
    ∀ (ids : List Nat) (st st2 : RState),
      runEffectListW rc ids st = some (st2, false) →
      ∃ t, st2.trace = st.trace ++ t ∧ ∀ id ∈ ids, Ev.runEv id ∈ t := by
  intro ids
  induction ids with
  | nil =>
    intro st st2 h
    simp only [runEffectListW] at h
    cases h
    exact ⟨[], by simp, by simp⟩
  | cons id ids ih =>
    intro st st2 h
    simp only [runEffectListW] at h
    cases heff : runEffectW rc id st with
    | none => rw [heff] at h; cases h
    | some r1 =>
      obtain ⟨st1, th⟩ := r1
      rw [heff] at h
      cases th with
      | true => cases h
      | false =>
        obtain ⟨tb, htb⟩ : ∃ t, st1.trace = (st.trace ++ [Ev.runEv id]) ++ t := by
          simp only [runEffectW] at heff
          cases hbody : rc (st.effectBodies.getD id Cmd.skip) { st with currentEffect := some id, trace := st.trace ++ [Ev.runEv id] } with
          | none => rw [hbody] at heff; cases heff
          | some r2 =>
            obtain ⟨st3, th3⟩ := r2
            rw [hbody] at heff
            cases th3 with
            | true => cases heff
            | false =>
              cases heff
              exact (hrc _ _ _ hbody).2
        obtain ⟨t2, ht2, hmem⟩ := ih st1 st2 h
        refine ⟨[Ev.runEv id] ++ tb ++ t2, ?_, ?_⟩
        · rw [ht2, htb]; simp
        · intro x hx
          rcases List.mem_cons.mp hx with hx1 | hx2
          · subst hx1; simp
          · simp only [List.append_assoc, List.mem_append]
            exact Or.inr (Or.inr (hmem x hx2))

/-- A value-changing setter call with no open batch: the value is stored,
the write is logged, and (when the notification pass completes without an
exception) every listener subscribed at write time is rerun: its runEv
appears in the trace appended after the write event. -/
theorem set_unbatched_notifies (fuel : Nat) (st st2 : RState) (s : Nat) (v : Int)
    (sig : Signal) (hs : st.signals[s]? = some sig) (hne : sig.value ≠ v)
    (hb : st.isBatching = false)
    (h : runCmd (fuel + 1) (.set s v) st = some (st2, false)) :
    ∃ t, st2.trace = st.trace ++ [Ev.writeEv s v] ++ t ∧
      ∀ e ∈ sig.listeners, Ev.runEv e ∈ t := by
  simp only [runCmd, hs, hb] at h
  rw [if_neg hne] at h
  simp only [Bool.false_eq_true, if_false] at h
  cases hlist : runEffectListW (runCmd fuel) sig.listeners { st with signals := st.signals.set s { sig with value := v }, trace := st.trace ++ [Ev.writeEv s v], isBatching := true, batchQueue := [] } with
  | none => rw [hlist] at h; cases h
  | some r3 =>
    obtain ⟨st3, th3⟩ := r3
    rw [hlist] at h
    simp only [runFinallyW] at h
    cases hflush : runEffectListW (runCmd fuel) (jsSetOfList st3.batchQueue) { st3 with isBatching := false, batchQueue := st.batchQueue, trace := st3.trace ++ [Ev.restoreEv] } with
    | none => rw [hflush] at h; cases h
    | some r4 =>
      obtain ⟨st4, th4⟩ := r4
      rw [hflush] at h
      cases th3 with
      | true => simp at h
      | false =>
        simp only [Bool.false_or] at h
        cases h
        obtain ⟨t1, ht1, hmem1⟩ := runEffectListW_runs (runCmd fuel) (runCmd_mono fuel) _ _ _ hlist
        obtain ⟨t2, ht2⟩ := (runEffectListW_mono (runCmd fuel) (runCmd_mono fuel) _ _ (st2, false) hflush).2
        refine ⟨t1 ++ [Ev.restoreEv] ++ t2, ?_, ?_⟩
        · rw [ht2]
          simp only [ht1]
          simp
        · intro e he
          have := hmem1 e he
          simp only [List.append_assoc, List.mem_append]
          exact Or.inl this

/-- C3: for every signal with current value v, a write of a strictly-equal
value returns immediately as a complete no-op: the state (stored value,
subscribers, batch queue, trace) is unchanged, so no subscriber is
notified and zero reruns occur.  Otherwise the value is updated and the
subscribers are notified: with a batch open every current listener is
enqueued into the pending queue, and with no batch open every listener
subscribed at write time is rerun (its runEv is appended after the write
event). -/
theorem signal_write_noop_or_notify :
    (∀ (fuel : Nat) (st : RState) (s : Nat) (v : Int) (sig : Signal),
        st.signals[s]? = some sig → sig.value = v →
        runCmd (fuel + 1) (.set s v) st = some (st, false)) ∧
    (∀ (fuel : Nat) (st : RState) (s : Nat) (v : Int) (sig : Signal),
        st.signals[s]? = some sig → sig.value ≠ v → st.isBatching = true →
        runCmd (fuel + 1) (.set s v) st =
          some ({ st with signals := st.signals.set s { sig with value := v },
                          trace := st.trace ++ [Ev.writeEv s v],
                          batchQueue := st.batchQueue ++ sig.listeners }, false)) ∧
    (∀ (fuel : Nat) (st st2 : RState) (s : Nat) (v : Int) (sig : Signal),
        st.signals[s]? = some sig → sig.value ≠ v → st.isBatching = false →
        runCmd (fuel + 1) (.set s v) st = some (st2, false) →
        ∃ t, st2.trace = st.trace ++ [Ev.writeEv s v] ++ t ∧
          ∀ e ∈ sig.listeners, Ev.runEv e ∈ t) :=
  ⟨set_noop, set_batched, set_unbatched_notifies⟩

/-- The state used to instantiate the reactive-core witnesses: one signal
holding 0 whose listener set contains effect 7. -/
def Swit : RState :=
  { currentEffect := none, batchQueue := [], isBatching := false,
    signals := [{ value := 0, listeners := [7] }], effectBodies := [], trace := [] }

/-- Witness for C3: writing the identical value 0 to a signal holding 0 is
a no-op on a concrete state. -/
theorem signal_write_noop_or_notify_witness :
    runCmd 4 (Cmd.set 0 0) Swit = some (Swit, false) :=
  signal_write_noop_or_notify.1 3 Swit 0 0 { value := 0, listeners := [7] }
    (by decide) (by decide)

/-- C9: subscriptions never shrink.  Whatever program runs, an effect that
is in a signal's listener set beforehand is still in it afterwards, and a
later value-changing write to that signal while a batch is open still
enqueues that effect into the pending queue. -/
theorem subscriptions_never_shrink (fuel : Nat) (c : Cmd) (st st2 : RState) (th : Bool)
    (h : runCmd fuel c st = some (st2, th)) (s e : Nat) (sig : Signal)
    (hs : st.signals[s]? = some sig) (he : e ∈ sig.listeners) :
    ∃ sig2, st2.signals[s]? = some sig2 ∧ e ∈ sig2.listeners ∧
      (∀ (fuel2 : Nat) (v : Int), sig2.value ≠ v → st2.isBatching = true →
        runCmd (fuel2 + 1) (.set s v) st2 =
          some ({ st2 with signals := st2.signals.set s { sig2 with value := v },
                           trace := st2.trace ++ [Ev.writeEv s v],
                           batchQueue := st2.batchQueue ++ sig2.listeners }, false) ∧
          e ∈ st2.batchQueue ++ sig2.listeners) := by
  obtain ⟨sig2, h1, h2⟩ := (runCmd_mono fuel c st (st2, th) h).1 s sig hs
  exact ⟨sig2, h1, h2 he, fun fuel2 v hne hb =>
    ⟨set_batched fuel2 st2 s v sig2 h1 hne hb, List.mem_append_right _ (h2 he)⟩⟩

/-- The state Swit after running batch(() => set(0, 5)). -/
def SwitAfter : RState :=
  { currentEffect := none, batchQueue := [], isBatching := false,
    signals := [{ value := 5, listeners := [7] }], effectBodies := [],
    trace := [Ev.writeEv 0 5, Ev.restoreEv, Ev.runEv 7] }

/-- Witness for C9: after a concrete batched write, effect 7 is still
subscribed to signal 0. -/
theorem subscriptions_never_shrink_witness :
    ∃ sig2, SwitAfter.signals[0]? = some sig2 ∧ 7 ∈ sig2.listeners ∧
      (∀ (fuel2 : Nat) (v : Int), sig2.value ≠ v → SwitAfter.isBatching = true →
        runCmd (fuel2 + 1) (.set 0 v) SwitAfter =
          some ({ SwitAfter with
                  signals := SwitAfter.signals.set 0 { sig2 with value := v },
                  trace := SwitAfter.trace ++ [Ev.writeEv 0 v],
                  batchQueue := SwitAfter.batchQueue ++ sig2.listeners }, false) ∧
          7 ∈ SwitAfter.batchQueue ++ sig2.listeners) :=
  subscriptions_never_shrink 4 (.batch (.set 0 5)) Swit SwitAfter false (by decide)
    0 7 { value := 0, listeners := [7] } (by decide) (by decide)

/-- The empty initial reactive state. -/
def emptyR : RState :=
  { currentEffect := none, batchQueue := [], isBatching := false,
    signals := [], effectBodies := [], trace := [] }

/-- C5 (the code contradicts the claim): effect(fn) builds execute as
"currentEffect = execute; fn(); currentEffect = null" with no try/finally,
so when the body raises, the active-effect cursor is left pointing at the
effect (first conjunct: after running an effect whose body throws, the
cursor is some 0, not none, and the exception propagates).  On normal
completion the cursor is cleared (second conjunct). -/
theorem effect_throwing_body_leaves_cursor :
    (runCmd 5 (.effect .throwJS) emptyR =
      some ({ emptyR with currentEffect := some 0, effectBodies := [.throwJS], trace := [Ev.runEv 0] }, true)) ∧
    (({ emptyR with currentEffect := some 0, effectBodies := [.throwJS], trace := [Ev.runEv 0] } : RState).currentEffect ≠ none) ∧
    (runCmd 5 (.effect .skip) emptyR =
      some ({ emptyR with effectBodies := [.skip], trace := [Ev.runEv 0] }, false)) := by
  exact ⟨by decide, by decide, by decide⟩

/-- A write instruction for the batch scenarios: the Bool selects signal 1
(true) or signal 0 (false), the Int is the value written. -/
def sigIdx (w : Bool × Int) : Nat := if w.1 then 1 else 0

/-- The trace event such a write produces. -/
def evOf (w : Bool × Int) : Ev := Ev.writeEv (sigIdx w) w.2

/-- The callback performing a list of writes in order, as handed to
batch. -/
def seqWrites : List (Bool × Int) → Cmd
  | [] => .skip
  | w :: ws => .seq (.set (sigIdx w) w.2) (seqWrites ws)

/-- Sequential application of the writes to the pair of signal values. -/
def applyW : List (Bool × Int) → Int × Int → Int × Int
  | [], p => p
  | w :: ws, p => applyW ws (if w.1 then (p.1, w.2) else (w.2, p.2))

/-- The listeners enqueued by the writes, given the two signals' listener
lists. -/
def enqW (l0 l1 : List Nat) : List (Bool × Int) → List Nat
  | [] => []
  | w :: ws => (if w.1 then l1 else l0) ++ enqW l0 l1 ws

/-- Decides that every write in the list changes the value it targets
(evaluated sequentially from the given pair of starting values). -/
def allChangingB : List (Bool × Int) → Int × Int → Bool
  | [], _ => true
  | w :: ws, p =>
    (if w.1 then decide (w.2 ≠ p.2) else decide (w.2 ≠ p.1)) &&
    allChangingB ws (if w.1 then (p.1, w.2) else (w.2, p.2))

/-- The interpreter state inside an open batch over two signals with fixed
listener lists l0 and l1 and fixed effect bodies E. -/
def midState (l0 l1 : List Nat) (E : List Cmd) (a b : Int) (q : List Nat)
    (tr : List Ev) : RState :=
  { currentEffect := none, batchQueue := q, isBatching := true,
    signals := [{ value := a, listeners := l0 }, { value := b, listeners := l1 }],
    effectBodies := E, trace := tr }

/-- Sequencing: when the first command completes normally, running the
sequence is running the second command from the intermediate state. -/
theorem runCmd_seq_ok (fuel : Nat) (a b : Cmd) (st st1 : RState)
    (h : runCmd fuel a st = some (st1, false)) :
    runCmd (fuel + 1) (.seq a b) st = runCmd fuel b st1 := by
  simp only [runCmd, h]

/-- Running a sequence of value-changing writes inside an open batch only
stores the values, logs the writes, and appends the affected listeners to
the pending queue; no effect is rerun. -/
theorem runCmd_seqWrites (l0 l1 : List Nat) (E : List Cmd) :
    ∀ (ws : List (Bool × Int)) (fuel : Nat) (a b : Int) (q : List Nat) (tr : List Ev),
      ws.length < fuel → allChangingB ws (a, b) = true →
      runCmd fuel (seqWrites ws) (midState l0 l1 E a b q tr) =
        some (midState l0 l1 E (applyW ws (a, b)).1 (applyW ws (a, b)).2
          (q ++ enqW l0 l1 ws) (tr ++ ws.map evOf), false) := by
  intro ws
  induction ws with
  | nil =>
    intro fuel a b q tr hf _
    cases fuel with
    | zero => omega
    | succ f => simp [seqWrites, runCmd, applyW, enqW]
  | cons w ws ih =>
    intro fuel a b q tr hf hch
    obtain ⟨sel, v⟩ := w
    simp only [allChangingB, Bool.and_eq_true] at hch
    obtain ⟨hch1, hch2⟩ := hch
    cases fuel with
    | zero => omega
    | succ f =>
      cases f with
      | zero => simp at hf
      | succ f2 =>
        have hlen : ws.length < f2 + 1 := by simp at hf; omega
        cases sel with
        | false =>
          have hget : (midState l0 l1 E a b q tr).signals[sigIdx (false, v)]? =
              some { value := a, listeners := l0 } := by
            simp [midState, sigIdx]
          have hv : v ≠ a := by simpa using hch1
          have hstep := set_batched f2 (midState l0 l1 E a b q tr) (sigIdx (false, v)) v
            { value := a, listeners := l0 } hget (Ne.symm hv) (by simp [midState])
          have hmid : ({ midState l0 l1 E a b q tr with
              signals := (midState l0 l1 E a b q tr).signals.set (sigIdx (false, v)) { value := v, listeners := l0 },
              trace := (midState l0 l1 E a b q tr).trace ++ [Ev.writeEv (sigIdx (false, v)) v],
              batchQueue := (midState l0 l1 E a b q tr).batchQueue ++ l0 } : RState) =
              midState l0 l1 E v b (q ++ l0) (tr ++ [evOf (false, v)]) := by
            simp [midState, sigIdx, evOf]
          rw [hmid] at hstep
          rw [show seqWrites ((false, v) :: ws) =
                Cmd.seq (.set (sigIdx (false, v)) v) (seqWrites ws) from rfl,
              runCmd_seq_ok (f2 + 1) _ _ _ _ hstep,
              ih (f2 + 1) v b (q ++ l0) (tr ++ [evOf (false, v)]) hlen hch2]
          simp [applyW, enqW, evOf]
        | true =>
          have hget : (midState l0 l1 E a b q tr).signals[sigIdx (true, v)]? =
              some { value := b, listeners := l1 } := by
            simp [midState, sigIdx]
          have hv : v ≠ b := by simpa using hch1
          have hstep := set_batched f2 (midState l0 l1 E a b q tr) (sigIdx (true, v)) v
            { value := b, listeners := l1 } hget (Ne.symm hv) (by simp [midState])
          have hmid : ({ midState l0 l1 E a b q tr with
              signals := (midState l0 l1 E a b q tr).signals.set (sigIdx (true, v)) { value := v, listeners := l1 },
              trace := (midState l0 l1 E a b q tr).trace ++ [Ev.writeEv (sigIdx (true, v)) v],
              batchQueue := (midState l0 l1 E a b q tr).batchQueue ++ l1 } : RState) =
              midState l0 l1 E a v (q ++ l1) (tr ++ [evOf (true, v)]) := by
            simp [midState, sigIdx, evOf]
          rw [hmid] at hstep
          rw [show seqWrites ((true, v) :: ws) =
                Cmd.seq (.set (sigIdx (true, v)) v) (seqWrites ws) from rfl,
              runCmd_seq_ok (f2 + 1) _ _ _ _ hstep,
              ih (f2 + 1) a v (q ++ l1) (tr ++ [evOf (true, v)]) hlen hch2]
          simp [applyW, enqW, evOf]

theorem mem_jsSetAdd_iff (l : List Nat) (e x : Nat) :
    x ∈ jsSetAdd l e ↔ x ∈ l ∨ x = e := by
  unfold jsSetAdd
  split
  · constructor
    · exact fun h => Or.inl h
    · rintro (h | rfl) <;> [exact h; assumption]
  · simp

theorem mem_foldl_jsSetAdd :
    ∀ (l acc : List Nat) (x : Nat), x ∈ List.foldl jsSetAdd acc l ↔ x ∈ acc ∨ x ∈ l := by
  intro l
  induction l with
  | nil => simp
  | cons y ys ih =>
    intro acc x
    simp only [List.foldl_cons, ih, mem_jsSetAdd_iff, List.mem_cons]
    tauto

theorem mem_jsSetOfList (l : List Nat) (x : Nat) : x ∈ jsSetOfList l ↔ x ∈ l := by
  unfold jsSetOfList
  rw [mem_foldl_jsSetAdd]
  simp

theorem jsSetAdd_nodup (l : List Nat) (e : Nat) (h : l.Nodup) : (jsSetAdd l e).Nodup := by
  unfold jsSetAdd
  split
  · exact h
  · rename_i hne
    simp [List.nodup_append, h, hne]

theorem foldl_jsSetAdd_nodup :
    ∀ (l acc : List Nat), acc.Nodup → (List.foldl jsSetAdd acc l).Nodup := by
  intro l
  induction l with
  | nil => exact fun acc h => h
  | cons y ys ih => exact fun acc h => ih _ (jsSetAdd_nodup acc y h)

theorem jsSetOfList_nodup (l : List Nat) : (jsSetOfList l).Nodup :=
  foldl_jsSetAdd_nodup l [] List.nodup_nil

theorem foldl_jsSetAdd_absorb :
    ∀ (l acc : List Nat), (∀ x ∈ l, x ∈ acc) → List.foldl jsSetAdd acc l = acc := by
  intro l
  induction l with
  | nil => intro acc _; rfl
  | cons x xs ih =>
    intro acc hmem
    have hx : x ∈ acc := hmem x (by simp)
    simp only [List.foldl_cons]
    rw [show jsSetAdd acc x = acc from by simp [jsSetAdd, hx]]
    exact ih acc fun y hy => hmem y (by simp [hy])

theorem enqW_zeros (ws : List (Bool × Int)) :
    enqW [0] [0] ws = List.replicate ws.length 0 := by
  induction ws with
  | nil => rfl
  | cons w ws ih => cases hw : w.1 <;> simp [enqW, hw, ih, List.replicate_succ]

theorem jsSetOfList_replicate_zero (n : Nat) :
    jsSetOfList (List.replicate (n + 1) 0) = [0] := by
  simp only [jsSetOfList, List.replicate_succ, List.foldl_cons]
  rw [show jsSetAdd [] 0 = [0] from rfl]
  exact foldl_jsSetAdd_absorb _ _ fun x hx => by
    simp [List.eq_of_mem_replicate hx]

theorem enqW_01_lt (ws : List (Bool × Int)) : ∀ x ∈ enqW [0] [1] ws, x < 2 := by
  induction ws with
  | nil => simp [enqW]
  | cons w ws ih =>
    intro x hx
    simp only [enqW, List.mem_append] at hx
    rcases hx with hx | hx
    · cases hw : w.1 <;> rw [hw] at hx <;> simp_all
    · exact ih x hx

/-- Entering a fresh batch: open the pending set, run the callback, then
the finally block runs with the pre-entry queue as the queue to restore. -/
theorem runCmd_batch_fresh (fuel : Nat) (c : Cmd) (st st2 : RState) (th : Bool)
    (hb : st.isBatching = false)
    (h : runCmd fuel c { st with isBatching := true, batchQueue := [] } = some (st2, th)) :
    runCmd (fuel + 1) (.batch c) st = runFinallyW (runCmd fuel) st.batchQueue st2 th := by
  simp only [runCmd, hb, h, Bool.false_eq_true, if_false]

/-- Flushing the single shared effect of the C1 scenario (body: read both
signals, both listener sets already contain it) only logs its rerun. -/
theorem flushC1 (fuel : Nat) (a b : Int) (q : List Nat) (ib : Bool) (tr : List Ev) :
    runEffectListW (runCmd (fuel + 3)) [0]
      { currentEffect := none, batchQueue := q, isBatching := ib,
        signals := [{ value := a, listeners := [0] }, { value := b, listeners := [0] }],
        effectBodies := [.seq (.get 0) (.get 1)], trace := tr } =
      some ({ currentEffect := none, batchQueue := q, isBatching := ib,
              signals := [{ value := a, listeners := [0] }, { value := b, listeners := [0] }],
              effectBodies := [.seq (.get 0) (.get 1)], trace := tr ++ [Ev.runEv 0] }, false) := by
  simp [runEffectListW, runEffectW, runCmd, doRead, jsSetAdd]

/-- Flushing any list of the two effects of the C4 scenario (each body
reads its own signal, whose listener set already contains it) only logs
their reruns, in list order. -/
theorem flushC4 :
    ∀ (ids : List Nat), (∀ id ∈ ids, id < 2) →
    ∀ (fuel : Nat) (a b : Int) (q : List Nat) (ib : Bool) (tr : List Ev),
    runEffectListW (runCmd (fuel + 2)) ids
      { currentEffect := none, batchQueue := q, isBatching := ib,
        signals := [{ value := a, listeners := [0] }, { value := b, listeners := [1] }],
        effectBodies := [.get 0, .get 1], trace := tr } =
      some ({ currentEffect := none, batchQueue := q, isBatching := ib,
              signals := [{ value := a, listeners := [0] }, { value := b, listeners := [1] }],
              effectBodies := [.get 0, .get 1], trace := tr ++ ids.map Ev.runEv }, false) := by
  intro ids
  induction ids with
  | nil =>
    intro _ fuel a b q ib tr
    simp [runEffectListW]
  | cons id ids ih =>
    intro hlt fuel a b q ib tr
    have hid : id = 0 ∨ id = 1 := by
      have := hlt id (by simp)
      omega
    have hrest : ∀ x ∈ ids, x < 2 := fun x hx => hlt x (by simp [hx])
    rcases hid with rfl | rfl
    · rw [show runEffectListW (runCmd (fuel + 2)) (0 :: ids)
            { currentEffect := none, batchQueue := q, isBatching := ib,
              signals := [{ value := a, listeners := [0] }, { value := b, listeners := [1] }],
              effectBodies := [.get 0, .get 1], trace := tr } =
          runEffectListW (runCmd (fuel + 2)) ids
            { currentEffect := none, batchQueue := q, isBatching := ib,
              signals := [{ value := a, listeners := [0] }, { value := b, listeners := [1] }],
              effectBodies := [.get 0, .get 1], trace := tr ++ [Ev.runEv 0] } from by
        simp [runEffectListW, runEffectW, runCmd, doRead, jsSetAdd]]
      rw [ih hrest fuel a b q ib (tr ++ [Ev.runEv 0])]
      simp
    · rw [show runEffectListW (runCmd (fuel + 2)) (1 :: ids)
            { currentEffect := none, batchQueue := q, isBatching := ib,
              signals := [{ value := a, listeners := [0] }, { value := b, listeners := [1] }],
              effectBodies := [.get 0, .get 1], trace := tr } =
          runEffectListW (runCmd (fuel + 2)) ids
            { currentEffect := none, batchQueue := q, isBatching := ib,
              signals := [{ value := a, listeners := [0] }, { value := b, listeners := [1] }],
              effectBodies := [.get 0, .get 1], trace := tr ++ [Ev.runEv 1] } from by
        simp [runEffectListW, runEffectW, runCmd, doRead, jsSetAdd]]
      rw [ih hrest fuel a b q ib (tr ++ [Ev.runEv 1])]
      simp

/-- Recognizes effect-rerun events in the trace. -/
def isRunEv : Ev → Bool
  | .runEv _ => true
  | _ => false

theorem countP_isRunEv_map_evOf (ws : List (Bool × Int)) :
    (ws.map evOf).countP isRunEv = 0 := by
  induction ws with
  | nil => rfl
  | cons w ws ih => simp [List.countP_cons, evOf, isRunEv, ih]

theorem jsSetOfList_enqW_zeros (ws : List (Bool × Int)) (hne : ws ≠ []) :
    jsSetOfList (enqW [0] [0] ws) = [0] := by
  rw [enqW_zeros]
  obtain ⟨n, hn⟩ : ∃ n, ws.length = n + 1 :=
    ⟨ws.length - 1, by cases ws with | nil => simp at hne | cons a l => simp⟩
  rw [hn, jsSetOfList_replicate_zero]

/-- The initial state of the single-rerun scenario: two signals holding va
and vb, and one effect (index 0) whose body reads both, already recorded
as the sole listener of each (the state right after effect() first ran a
body reading both signals). -/
def S0 (va vb : Int) : RState :=
  { currentEffect := none, batchQueue := [], isBatching := false,
    signals := [{ value := va, listeners := [0] }, { value := vb, listeners := [0] }],
    effectBodies := [.seq (.get 0) (.get 1)], trace := [] }

/-- C1: batching N value-changing writes (N at least 1) across two signals
that share one subscriber effect reruns that effect exactly once, after
all the writes: the trace is the N write events, then the queue-restore
point of the finally block, then one single run event; the final signal
values are the sequential result of all the writes.  The second conjunct
counts the rerun events in that trace: exactly 1, not N and not one per
signal. -/
theorem batch_reruns_shared_effect_once (ws : List (Bool × Int)) (va vb : Int)
    (hne : ws ≠ []) (hch : allChangingB ws (va, vb) = true) :
    runCmd (ws.length + 5) (.batch (seqWrites ws)) (S0 va vb) =
      some ({ S0 va vb with
              signals := [{ value := (applyW ws (va, vb)).1, listeners := [0] },
                          { value := (applyW ws (va, vb)).2, listeners := [0] }],
              trace := ws.map evOf ++ [Ev.restoreEv, Ev.runEv 0] }, false) ∧
    (ws.map evOf ++ [Ev.restoreEv, Ev.runEv 0]).countP isRunEv = 1 := by
  constructor
  · have hw := runCmd_seqWrites [0] [0] [Cmd.seq (.get 0) (.get 1)] ws (ws.length + 4)
      va vb [] [] (by omega) hch
    have hst : midState [0] [0] [Cmd.seq (.get 0) (.get 1)] va vb [] [] =
        { S0 va vb with isBatching := true, batchQueue := [] } := rfl
    rw [hst] at hw
    show runCmd (ws.length + 4 + 1) (.batch (seqWrites ws)) (S0 va vb) = _
    rw [runCmd_batch_fresh (ws.length + 4) _ _ _ _ rfl hw]
    simp only [runFinallyW, midState, List.nil_append]
    rw [show jsSetOfList (enqW [0] [0] ws) = [0] from jsSetOfList_enqW_zeros ws hne]
    rw [show (ws.length + 4) = (ws.length + 1) + 3 from rfl]
    rw [flushC1 (ws.length + 1) (applyW ws (va, vb)).1 (applyW ws (va, vb)).2
      (S0 va vb).batchQueue false (ws.map evOf ++ [Ev.restoreEv])]
    simp [S0]
  · rw [List.countP_append, countP_isRunEv_map_evOf]
    simp [isRunEv]

/-- Sequencing with a trailing throw: the writes land, then the exception
is raised from the intermediate state. -/
theorem runCmd_seq_throw (fuel : Nat) (c : Cmd) (st st1 : RState)
    (h : runCmd (fuel + 1) c st = some (st1, false)) :
    runCmd (fuel + 1 + 1) (.seq c .throwJS) st = some (st1, true) := by
  rw [runCmd_seq_ok (fuel + 1) _ _ _ _ h]
  simp [runCmd]

/-- The initial state of the exception scenario: two signals, each with
its own subscriber effect (effect 0 reads signal 0, effect 1 reads signal
1), as established by two effect() calls. -/
def S4 (va vb : Int) : RState :=
  { currentEffect := none, batchQueue := [], isBatching := false,
    signals := [{ value := va, listeners := [0] }, { value := vb, listeners := [1] }],
    effectBodies := [.get 0, .get 1], trace := [] }

/-- C4 (amended): when the callback of a fresh batch performs value-changing
writes and then raises, the finally block still deduplicates the pending
queue (new Set keeps the first occurrence of each effect, in enqueue
order) and reruns each pending effect exactly once, in that first-enqueued
order, before the exception propagates (the overall result is thrown =
true); the reruns happen after the outer pending queue has been restored
(the restore event precedes the run events in the trace), not before as
the original claim states.  The Nodup conjunct gives "at most once", the
membership conjunct gives "every pending effect is rerun". -/
theorem batch_throwing_callback_still_flushes (ws : List (Bool × Int)) (va vb : Int)
    (hch : allChangingB ws (va, vb) = true) :
    runCmd (ws.length + 6) (.batch (.seq (seqWrites ws) .throwJS)) (S4 va vb) =
      some ({ S4 va vb with
              signals := [{ value := (applyW ws (va, vb)).1, listeners := [0] },
                          { value := (applyW ws (va, vb)).2, listeners := [1] }],
              trace := ws.map evOf ++ [Ev.restoreEv] ++
                (jsSetOfList (enqW [0] [1] ws)).map Ev.runEv }, true) ∧
    (jsSetOfList (enqW [0] [1] ws)).Nodup ∧
    (∀ e : Nat, e ∈ jsSetOfList (enqW [0] [1] ws) ↔ e ∈ enqW [0] [1] ws) := by
  refine ⟨?_, jsSetOfList_nodup _, fun e => mem_jsSetOfList _ e⟩
  have hw := runCmd_seqWrites [0] [1] [Cmd.get 0, Cmd.get 1] ws (ws.length + 4)
    va vb [] [] (by omega) hch
  have hthrow := runCmd_seq_throw (ws.length + 3) (seqWrites ws) _ _ hw
  have hst : midState [0] [1] [Cmd.get 0, Cmd.get 1] va vb [] [] =
      { S4 va vb with isBatching := true, batchQueue := [] } := rfl
  rw [hst] at hthrow
  show runCmd (ws.length + 5 + 1) (.batch (.seq (seqWrites ws) .throwJS)) (S4 va vb) = _
  rw [runCmd_batch_fresh (ws.length + 5) _ _ _ _ rfl hthrow]
  simp only [runFinallyW, midState, List.nil_append]
  have hids : ∀ id ∈ jsSetOfList (enqW [0] [1] ws), id < 2 := fun id hid =>
    enqW_01_lt ws id ((mem_jsSetOfList _ id).mp hid)
  rw [show (ws.length + 5) = (ws.length + 3) + 2 from rfl]
  rw [flushC4 (jsSetOfList (enqW [0] [1] ws)) hids (ws.length + 3)
    (applyW ws (va, vb)).1 (applyW ws (va, vb)).2 (S4 va vb).batchQueue false
    (ws.map evOf ++ [Ev.restoreEv])]
  simp [S4]

/-- Witness for C1: two value-changing writes to two signals sharing
effect 0 inside one batch rerun effect 0 exactly once, after both
writes. -/
theorem batch_reruns_shared_effect_once_witness :
    runCmd 7 (.batch (seqWrites [(false, 1), (true, 2)])) (S0 0 0) =
      some ({ S0 0 0 with
              signals := [{ value := 1, listeners := [0] }, { value := 2, listeners := [0] }],
              trace := [Ev.writeEv 0 1, Ev.writeEv 1 2, Ev.restoreEv, Ev.runEv 0] }, false) ∧
    ([Ev.writeEv 0 1, Ev.writeEv 1 2, Ev.restoreEv, Ev.runEv 0]).countP isRunEv = 1 :=
  batch_reruns_shared_effect_once [(false, 1), (true, 2)] 0 0 (by decide) (by decide)

/-- Witness for C4 (amended): three writes (two of them to signal 0) and a
throw inside one batch still flush the deduplicated queue [0, 1] in
first-enqueued order before the exception propagates. -/
theorem batch_throwing_callback_still_flushes_witness :
    runCmd 9 (.batch (.seq (seqWrites [(false, 1), (true, 2), (false, 3)]) .throwJS)) (S4 0 0) =
      some ({ S4 0 0 with
              signals := [{ value := 3, listeners := [0] }, { value := 2, listeners := [1] }],
              trace := [Ev.writeEv 0 1, Ev.writeEv 1 2, Ev.writeEv 0 3,
                        Ev.restoreEv, Ev.runEv 0, Ev.runEv 1] }, true) ∧
    ([0, 1] : List Nat).Nodup ∧
    (∀ e : Nat, e ∈ ([0, 1] : List Nat) ↔ e ∈ ([0, 1, 0] : List Nat)) :=
  batch_throwing_callback_still_flushes [(false, 1), (true, 2), (false, 3)] 0 0 (by decide)

/-- C4 counterexample: in the source's finally block the statement
batchQueue = prevQueue (the restore of the outer pending set, logged as
restoreEv) executes before uniqueEffects.forEach (the reruns).  In this
concrete throwing batch the trace places the restore event at index 1 and
the single rerun of the pending effect at index 2: the rerun happens
after, not before, the outer pending set is restored, contradicting the
claim's ordering. -/
theorem batch_restore_precedes_reruns :
    runCmd 7 (.batch (.seq (.set 0 1) .throwJS)) (S4 0 0) =
      some ({ S4 0 0 with
              signals := [{ value := 1, listeners := [0] }, { value := 0, listeners := [1] }],
              trace := [Ev.writeEv 0 1, Ev.restoreEv, Ev.runEv 0] }, true) ∧
    [Ev.writeEv 0 1, Ev.restoreEv, Ev.runEv 0][1]? = some Ev.restoreEv ∧
    [Ev.writeEv 0 1, Ev.restoreEv, Ev.runEv 0][2]? = some (Ev.runEv 0) := by
  exact ⟨by decide, by decide, by decide⟩

/-
Part 2: the DOM layer (core.js and dom.js).

Retained DOM nodes live in a store addressed by numeric ids, so "the same
node instance" is id equality.  Attribute values in a description are
strings, booleans, or null (the claims never exercise function-valued
attributes: ref callbacks and on*-event handlers are, per the spec,
excluded property-applier collaborators, and with no function values in
the universe those dispatch branches can never fire; they are kept in the
dispatch chain as no-ops on the store).  Components (a function tag) are
likewise outside the description universe, so patch's component branch
has no counterpart here.  The mutually recursive patch family from the
source is tied through a fuel parameter: each helper takes the recursive
reference to patch (named rec) as an argument, and patch passes itself at
one less fuel, so the whole family is structurally recursive on fuel and
computes by rfl/decide.
-/

/-- A JS attribute value as used in descriptions: string, boolean, or
null/undefined. -/
inductive JVal where
  | vstr (s : String)
  | vbool (b : Bool)
  | vnull
deriving DecidableEq, Repr

/-- The hooks object of a description node; onMount records whether an
onMount hook is attached (invoking it is an external side effect with no
footprint in the retained store). -/
structure Hooks where
  onMount : Bool
deriving DecidableEq, Repr

/-- A description (virtual DOM value) handed to patch: a primitive string,
number, or boolean, null/undefined, an element description (tag, attrs,
hooks, children), or an array of descriptions. -/
inductive VNode where
  | vtext (s : String)
  | vnum (n : Int)
  | vboolP (b : Bool)
  | vnull
  | velem (tag : String) (attrs : List (String × JVal)) (hooks : Hooks) (children : List VNode)
  | vlist (items : List VNode)
deriving Repr

/-- String(x) for the primitive descriptions. -/
def jsString : VNode → String
  | .vtext s => s
  | .vnum n => toString n
  | .vboolP b => if b then "true" else "false"
  | _ => ""

/-- One level of Array.prototype.flat. -/
def flattenOne (cs : List VNode) : List VNode :=
  cs.flatMap fun c => match c with
    | .vlist xs => xs
    | c => [c]

/-- The exported Vnode constructor: normalize children (flatten one level
if an array, otherwise wrap into a one-element array) and attach a fresh
empty hooks object. -/
def Vnode (tag : String) (attrs : List (String × JVal)) (children : VNode) : VNode :=
  match children with
  | .vlist cs => .velem tag attrs { onMount := false } (flattenOne cs)
  | c => .velem tag attrs { onMount := false } [c]

/-- Extracts the hooks object of an element description. -/
def vnodeHooks : VNode → Hooks
  | .velem _ _ h _ => h
  | _ => { onMount := false }

/-- A retained DOM node: a text node, an element (tag, attribute store,
child ids in order), or a document fragment. -/
inductive DNode where
  | dtext (value : String)
  | delem (tag : String) (attrs : List (String × String)) (children : List Nat)
  | dfrag (children : List Nat)
deriving DecidableEq, Repr

/-- The retained store: nodes addressed by index (allocation appends), and
the optional document.body id for the body-singleton branch of
createElement. -/
structure Dom where
  nodes : List DNode
  body : Option Nat
deriving DecidableEq, Repr

def getN (d : Dom) (i : Nat) : Option DNode := d.nodes[i]?

def setN (d : Dom) (i : Nat) (n : DNode) : Dom := { d with nodes := d.nodes.set i n }

/-- Allocate a fresh node; its id is the previous store length. -/
def allocNode (d : Dom) (n : DNode) : Dom × Nat :=
  ({ d with nodes := d.nodes ++ [n] }, d.nodes.length)

def childrenOf (d : Dom) (i : Nat) : List Nat :=
  match getN d i with
  | some (.delem _ _ cs) => cs
  | some (.dfrag cs) => cs
  | _ => []

def setChildren (d : Dom) (i : Nat) (cs : List Nat) : Dom :=
  match getN d i with
  | some (.delem t a _) => setN d i (.delem t a cs)
  | some (.dfrag _) => setN d i (.dfrag cs)
  | _ => d

/-- Remove a node from whatever parent currently holds it (a DOM node has
at most one parent, so filtering every child list is the JS removal from
its unique parent). -/
def detach (d : Dom) (id : Nat) : Dom :=
  { d with nodes := d.nodes.map fun n => match n with
      | .delem t a cs => .delem t a (cs.filter (fun c => c ≠ id))
      | .dfrag cs => .dfrag (cs.filter (fun c => c ≠ id))
      | n => n }

/-- appendChild: take the node out of its current parent and append it to
the target's child list. -/
def appendChildD (d : Dom) (p c : Nat) : Dom :=
  let d1 := detach d c
  setChildren d1 p (childrenOf d1 p ++ [c])

/-- replaceChild(newC, oldC): oldC must be a direct child of the parent
(JS raises NotFoundError otherwise; in this development the call sites
guarantee it, and the unreachable branch leaves the store unchanged);
newC is detached from its current parent and put into oldC's slot. -/
def replaceChildD (d : Dom) (p newC oldC : Nat) : Dom :=
  if oldC ∈ childrenOf d p then
    let d1 := detach d newC
    setChildren d1 p ((childrenOf d1 p).map fun x => if x = oldC then newC else x)
  else d

/-- Insert a node into a child list just before the first occurrence of
the reference id (appending when the reference is absent, which the call
sites never produce). -/
def insertBeforeList : List Nat → Nat → Nat → List Nat
  | [], _, c => [c]
  | x :: xs, r, c => if x = r then c :: x :: xs else x :: insertBeforeList xs r c

/-- insertBefore(node, ref): detach the node, then insert it before ref
(null ref appends). -/
def insertBeforeD (d : Dom) (p node : Nat) (ref : Option Nat) : Dom :=
  let d1 := detach d node
  match ref with
  | none => setChildren d1 p (childrenOf d1 p ++ [node])
  | some r => setChildren d1 p (insertBeforeList (childrenOf d1 p) r node)

/-- Node.contains: descendant-or-self, bounded by the store size (a
well-formed retained tree is acyclic, so any path is shorter than the
node count). -/
def containsAux (d : Dom) : Nat → Nat → Nat → Bool
  | 0, _, _ => false
  | fuel + 1, root, target =>
    root = target || (childrenOf d root).any fun c => containsAux d fuel c target

def containsD (d : Dom) (root target : Nat) : Bool :=
  containsAux d (d.nodes.length + 1) root target

def attrLookup (attrs : List (String × String)) (k : String) : Option String :=
  (attrs.find? fun p => p.1 == k).map (fun p => p.2)

/-- setAttribute: overwrite in place or append. -/
def attrSet (attrs : List (String × String)) (k v : String) : List (String × String) :=
  if attrs.any (fun p => p.1 == k) then
    attrs.map fun p => if p.1 == k then (k, v) else p
  else attrs ++ [(k, v)]

def attrRemove (attrs : List (String × String)) (k : String) : List (String × String) :=
  attrs.filter fun p => p.1 != k

def domSetAttr (d : Dom) (el : Nat) (k v : String) : Dom :=
  match getN d el with
  | some (.delem t a cs) => setN d el (.delem t (attrSet a k v) cs)
  | _ => d

def domRemoveAttr (d : Dom) (el : Nat) (k : String) : Dom :=
  match getN d el with
  | some (.delem t a cs) => setN d el (.delem t (attrRemove a k) cs)
  | _ => d

def isInput (d : Dom) (el : Nat) : Bool :=
  match getN d el with
  | some (.delem t _ _) => t == "input"
  | _ => false

/-- The splice step of patchText when the values differ: create the new
text node, then replace the old node if the container contains it, else
append. -/
def patchTextNew (d : Dom) (p : Nat) (old : Option Nat) (text : String) : Dom × Option Nat :=
  let r := allocNode d (.dtext text)
  match old with
  | some o =>
    if containsD r.1 p o then (replaceChildD r.1 p r.2 o, some r.2)
    else (appendChildD r.1 p r.2, some r.2)
  | none => (appendChildD r.1 p r.2, some r.2)

/-- patchText: if the old node is a text node already holding the
stringified value (oldNode?.nodeValue === String(text)), return it
unchanged; otherwise splice in a fresh text node. -/
def patchText (d : Dom) (p : Nat) (old : Option Nat) (text : String) : Dom × Option Nat :=
  match old with
  | some o =>
    match getN d o with
    | some (.dtext v) =>
      if v = text then (d, some o)
      else patchTextNew d p old text
    | _ => patchTextNew d p old text
  | none => patchTextNew d p old text

/-- The tagName of a retained element (only consulted for elements). -/
def tagOf (d : Dom) (o : Nat) : String :=
  match getN d o with
  | some (.delem t _ _) => t
  | _ => ""

/-- shouldReplace: text-vs-element mismatch, or differing tag names.  Only
reached from patch with an element description (primitives divert to
patchText earlier), so isNewText mirrors the source's typeof check.  The
retained store keeps the tag exactly as the description supplied it, so
oldNode.tagName.toLowerCase() (the DOM uppercases and the source lowers
back) is the stored tag itself. -/
def shouldReplace (d : Dom) (o : Nat) (vn : VNode) : Bool :=
  let isOldText := match getN d o with | some (.dtext _) => true | _ => false
  let isNewText := match vn with | .vtext _ => true | .vnum _ => true | _ => false
  if isOldText != isNewText then true
  else !isNewText && (tagOf d o != (match vn with | .velem t _ _ _ => t | _ => ""))

/-- Children dropped before reconciliation and in fragments:
child !== false && child !== null && child !== undefined. -/
def childVisible : VNode → Bool
  | .vboolP false => false
  | .vnull => false
  | _ => true

/-- JS Map.set: overwrite in place or append (insertion order kept). -/
def mapSet (m : List (String × Nat)) (k : String) (v : Nat) : List (String × Nat) :=
  if m.any (fun p => p.1 == k) then
    m.map fun p => if p.1 == k then (k, v) else p
  else m ++ [(k, v)]

/-- JS Map.get (none when absent). -/
def mapGet (m : List (String × Nat)) (k : String) : Option Nat :=
  (m.find? fun p => p.1 == k).map (fun p => p.2)

/-- getKeyedNodes: index the retained element children (nodeType 1) that
carry a key attribute by that key. -/
def getKeyedNodes (d : Dom) (nodes : List Nat) : List (String × Nat) :=
  nodes.foldl (fun m id =>
    match getN d id with
    | some (.delem _ attrs _) =>
      match attrLookup attrs "key" with
      | some kv => mapSet m kv id
      | none => m
    | _ => m) []

/-- The key of a child description: child.attrs?.key when the child is an
object, null otherwise. -/
def vnodeKey : VNode → Option JVal
  | .velem _ attrs _ _ => (attrs.find? fun p => p.1 == "key").map (fun p => p.2)
  | _ => none

/-- The comparison target for the surviving child at output position i:
the key-indexed retained node when the child bears a key present in the
index (a string key — the index only holds attribute strings, so a
boolean key can never hit it, and a null key fails the key != null
test), otherwise whatever sits at position i in the original snapshot. -/
def chooseChildTarget (c : VNode) (keyed : List (String × Nat)) (oldCh : List Nat)
    (i : Nat) : Option Nat :=
  match vnodeKey c with
  | some (JVal.vstr s) =>
    match mapGet keyed s with
    | some n => some n
    | none => oldCh[i]?
  | some (JVal.vbool _) => oldCh[i]?
  | _ => oldCh[i]?

/-- One property-application step of updateElement, mirroring the source
dispatch chain in order.  The ref, focus, on*-handler and input
value/checked branches act outside the retained attribute store (callback
invocation, focus request, property assignment), so they leave the store
unchanged; with no function values in JVal the on* branch can also never
be taken. -/
def applyAttr (d : Dom) (el : Nat) (kv : String × JVal) : Dom :=
  if kv.1 == "ref" then d
  else if kv.1 == "focus" && kv.2 == JVal.vbool true then d
  else if kv.1 == "value" && isInput d el then d
  else if kv.1 == "checked" && isInput d el then d
  else if kv.2 == JVal.vbool true then domSetAttr d el kv.1 ""
  else if kv.2 == JVal.vbool false then domRemoveAttr d el kv.1
  else match kv.2 with
    | JVal.vstr s => domSetAttr d el kv.1 s
    | _ => d

/-- The reinsertion pass of reconcileChildren: for every output node in
order, when the live child at that index is not already the node, insert
it before whatever currently sits there (null past the end). -/
def reinsertPass : Dom → Nat → List Nat → Nat → Dom
  | d, _, [], _ => d
  | d, el, n :: ns, i =>
    let cur := (childrenOf d el)[i]?
    let d1 := if cur = some n then d else insertBeforeD d el n cur
    reinsertPass d1 el ns (i + 1)

/-- The trim loop of reconcileChildren: remove the last live child while
there are more than the kept count. -/
def trimPass : Nat → Dom → Nat → Nat → Dom
  | 0, d, _, _ => d
  | fuel + 1, d, el, keep =>
    let cs := childrenOf d el
    if cs.length ≤ keep then d
    else trimPass fuel (setChildren d el cs.dropLast) el keep

/-- The type of the recursive reference to patch, threaded through the
helpers of the mutually recursive source family. -/
abbrev PatchFn := Dom → Option Nat → Option Nat → VNode → Option (Dom × Option Nat)

/-- The forEach of reconcileChildren: patch each surviving child against
its chosen comparison target, collecting the produced nodes in output
order. -/
def reconcilePassW (rec : PatchFn) (el : Nat) (oldCh : List Nat)
    (keyed : List (String × Nat)) : Dom → List VNode → Nat → Option (Dom × List Nat)
  | d, [], _ => some (d, [])
  | d, c :: cs, i =>
    match rec d (some el) (chooseChildTarget c keyed oldCh i) c with
    | none => none
    | some (d1, r) =>
      match reconcilePassW rec el oldCh keyed d1 cs (i + 1) with
      | none => none
      | some (d2, rest) =>
        some (d2, match r with | some n => n :: rest | none => rest)

/-- reconcileChildren: snapshot the current children, build the keyed
index, filter out absent/false descriptions, patch each survivor against
its target, then reinsert in order and trim the excess. -/
def reconcileChildrenW (rec : PatchFn) (d : Dom) (el : Nat) (children : List VNode) :
    Option Dom :=
  let oldCh := childrenOf d el
  let keyed := getKeyedNodes d oldCh
  match reconcilePassW rec el oldCh keyed d (children.filter childVisible) 0 with
  | none => none
  | some (d1, newOrder) =>
    let d2 := reinsertPass d1 el newOrder 0
    some (trimPass (childrenOf d2 el).length d2 el newOrder.length)

/-- updateElement: apply every property in order through the dispatch
table, then reconcile the children.  (The source's early return when
vnode.attrs is absent cannot occur here: every element description
carries an attrs list.) -/
def updateElementW (rec : PatchFn) (d : Dom) (el : Nat) (attrs : List (String × JVal))
    (children : List VNode) : Option Dom :=
  reconcileChildrenW rec (attrs.foldl (fun dd kv => applyAttr dd el kv) d) el children

/-- The forEach of patchFragment: patch each child against no previous
node (note the source passes the real parent through) and append the
result to the fragment. -/
def fragPassW (rec : PatchFn) (parent : Option Nat) (fid : Nat) :
    Dom → List VNode → Option Dom
  | d, [] => some d
  | d, c :: cs =>
    match rec d parent none c with
    | none => none
    | some (d1, r) =>
      fragPassW rec parent fid (match r with | some n => appendChildD d1 fid n | none => d1) cs

/-- patchFragment: build a fresh fragment from the surviving children (the
previous retained node is ignored by the source). -/
def patchFragmentW (rec : PatchFn) (d : Dom) (parent : Option Nat)
    (children : List VNode) : Option (Dom × Option Nat) :=
  let r := allocNode d (.dfrag [])
  match fragPassW rec parent r.2 r.1 (children.filter childVisible) with
  | none => none
  | some d1 => some (d1, some r.2)

/-- createElement: null becomes an empty text node, an array becomes a
fragment (with no parent), a primitive becomes a text node, and an
element description either binds to the existing document body (the
body-singleton exception) or allocates a fresh element; either way the
onMount hook fires (externally) and the same update path runs. -/
def createElementW (rec : PatchFn) (d : Dom) (vn : VNode) : Option (Dom × Nat) :=
  match vn with
  | .vnull => some (allocNode d (.dtext ""))
  | .vlist items =>
    match patchFragmentW rec d none (items.filter childVisible) with
    | none => none
    | some (d1, some fid) => some (d1, fid)
    | some (d1, none) => some (d1, 0)
  | .vtext s => some (allocNode d (.dtext (jsString (.vtext s))))
  | .vnum n => some (allocNode d (.dtext (jsString (.vnum n))))
  | .vboolP b => some (allocNode d (.dtext (jsString (.vboolP b))))
  | .velem t attrs _ cs =>
    match (if t = "body" then d.body else none) with
    | some b =>
      match updateElementW rec d b attrs cs with
      | none => none
      | some d1 => some (d1, b)
    | none =>
      let r := allocNode d (.delem t [] [])
      match updateElementW rec r.1 r.2 attrs cs with
      | none => none
      | some d1 => some (d1, r.2)

/-- replaceNode: build the new retained node, then replace the old node if
the container contains it, else append. -/
def replaceNodeW (rec : PatchFn) (d : Dom) (p : Nat) (old : Option Nat) (vn : VNode) :
    Option (Dom × Option Nat) :=
  match createElementW rec d vn with
  | none => none
  | some (d1, newId) =>
    match old with
    | some o =>
      if containsD d1 p o then some (replaceChildD d1 p newId o, some newId)
      else some (appendChildD d1 p newId, some newId)
    | none => some (appendChildD d1 p newId, some newId)

/-- patch: the dispatch of dom.js.  No parent returns null; a null or
undefined description produces a fresh empty text node; an array goes to
the fragment path; a primitive (string, number — and, because typeof
false is not object, also a boolean) goes to the text path; an element
description is replaced or updated in place.  The component branch
(function tag) has no counterpart because the embedded description
universe has no function tags. -/
def patch : Nat → Dom → Option Nat → Option Nat → VNode → Option (Dom × Option Nat)
  | 0, _, _, _, _ => none
  | fuel + 1, d, parent, old, vn =>
    match parent with
    | none => some (d, none)
    | some p =>
      match vn with
      | .vnull =>
        let r := allocNode d (.dtext "")
        some (r.1, some r.2)
      | .vlist items => patchFragmentW (patch fuel) d (some p) items
      | .vtext s => some (patchText d p old (jsString (.vtext s)))
      | .vnum n => some (patchText d p old (jsString (.vnum n)))
      | .vboolP b => some (patchText d p old (jsString (.vboolP b)))
      | .velem t attrs hk cs =>
        match old with
        | none => replaceNodeW (patch fuel) d p none (.velem t attrs hk cs)
        | some o =>
          if shouldReplace d o (.velem t attrs hk cs) then
            replaceNodeW (patch fuel) d p (some o) (.velem t attrs hk cs)
          else
            match updateElementW (patch fuel) d o attrs cs with
            | none => none
            | some d1 => some (d1, some o)

/-- C10: the public description constructor Vnode always attaches a fresh
empty hooks object, whatever the tag, attrs, and children arguments are:
no argument can attach an onMount hook, so hooks can only be populated by
mutating the returned node afterwards. -/
theorem Vnode_hooks_empty (tag : String) (attrs : List (String × JVal)) (children : VNode) :
    vnodeHooks (Vnode tag attrs children) = { onMount := false } := by
  cases children <;> rfl

/-- An empty container element (the render target). -/
def dom0 : Dom := { nodes := [.delem "root" [] []], body := none }

/-- C6 counterexample: patching a false description does not yield an
empty placeholder.  false fails the newNode == null test and falls
through typeof newNode !== 'object' into the text path, producing a text
node whose value is the string "false", not the empty string. -/
theorem patch_false_not_empty_placeholder :
    patch 10 dom0 (some 0) none (.vboolP false) =
      some ({ nodes := [.delem "root" [] [1], .dtext "false"], body := none }, some 1) ∧
    getN { nodes := [.delem "root" [] [1], .dtext "false"], body := none } 1 ≠
      some (.dtext "") := by
  exact ⟨by decide, by decide⟩

/-- C6 (amended): for every container and previous retained node, patching
an absent (null/undefined) description yields a freshly created empty
text node — the caller always receives a produced node.  (A false
description instead takes the primitive text path and yields a "false"
text node; child filtering normally removes false children before patch
is ever called on them.) -/
theorem patch_null_empty_placeholder (fuel : Nat) (d : Dom) (p : Nat) (old : Option Nat) :
    patch (fuel + 1) d (some p) old VNode.vnull =
      some ({ d with nodes := d.nodes ++ [DNode.dtext ""] }, some d.nodes.length) := rfl

/-- The description of the round-trip scenario: a div with one text child
built through the exported constructor. -/
def descDivA : VNode := Vnode "div" [] (.vlist [.vtext "a"])

/-- The retained store after rendering descDivA into the empty container. -/
def domDivA : Dom :=
  { nodes := [.delem "root" [] [1], .delem "div" [] [2], .dtext "a"], body := none }

/-- C7: patching describeNode('div', ..., ['a']) into an empty container
and then patching again with the identical description is idempotent: the
second patch returns the same retained node (id 1) and leaves the entire
retained store untouched — no additional structural mutation beyond the
first pass. -/
theorem patch_round_trip_stable :
    patch 10 dom0 (some 0) none descDivA = some (domDivA, some 1) ∧
    patch 10 domDivA (some 0) (some 1) descDivA = some (domDivA, some 1) := by
  exact ⟨by decide, by decide⟩

theorem getN_push_lt (d : Dom) (n : DNode) (i : Nat) (h : i < d.nodes.length) :
    getN { d with nodes := d.nodes ++ [n] } i = getN d i := by
  simp [getN, List.getElem?_append_left h]

theorem childrenOf_push_text (d : Dom) (s : String) (p : Nat) :
    childrenOf { d with nodes := d.nodes ++ [DNode.dtext s] } p = childrenOf d p := by
  unfold childrenOf getN
  by_cases h : p < d.nodes.length
  · rw [List.getElem?_append_left h]
  · by_cases h2 : p = d.nodes.length
    · subst h2
      rw [List.getElem?_concat_length, List.getElem?_eq_none (by omega)]
    · rw [List.getElem?_eq_none (l := d.nodes ++ [DNode.dtext s]) (by simp; omega),
          List.getElem?_eq_none (by omega)]

theorem getN_detach (d : Dom) (id i : Nat) :
    getN (detach d id) i = (getN d i).map fun n => match n with
      | DNode.delem t a cs => DNode.delem t a (cs.filter (fun c => c ≠ id))
      | DNode.dfrag cs => DNode.dfrag (cs.filter (fun c => c ≠ id))
      | n => n := by
  simp [detach, getN]

theorem childrenOf_detach (d : Dom) (id p : Nat) :
    childrenOf (detach d id) p = (childrenOf d p).filter (fun c => c ≠ id) := by
  unfold childrenOf
  rw [getN_detach]
  cases getN d p with
  | none => rfl
  | some n => cases n <;> rfl

theorem getN_detach_text (d : Dom) (id o : Nat) (v : String)
    (h : getN d o = some (.dtext v)) : getN (detach d id) o = some (.dtext v) := by
  rw [getN_detach, h]
  rfl

theorem childrenOf_setChildren_self (d : Dom) (p : Nat) (cs : List Nat)
    (t : String) (a : List (String × String)) (cs0 : List Nat)
    (h : getN d p = some (DNode.delem t a cs0)) :
    childrenOf (setChildren d p cs) p = cs := by
  have hlt : p < d.nodes.length := (List.getElem?_eq_some.mp h).1
  unfold setChildren
  rw [h]
  unfold childrenOf setN getN
  simp [List.getElem?_set_eq_of_lt _ hlt]

theorem getN_setChildren_other (d : Dom) (p o : Nat) (cs : List Nat) (hpo : p ≠ o) :
    getN (setChildren d p cs) o = getN d o := by
  unfold setChildren
  cases h : getN d p with
  | none => rfl
  | some n =>
    cases n <;> simp [setN, getN, List.getElem?_set_ne hpo]

theorem containsAux_self (d : Dom) (fuel o : Nat) :
    containsAux d (fuel + 1) o o = true := by
  simp [containsAux]

theorem containsD_child (d : Dom) (p o : Nat) (ho : o ∈ childrenOf d p)
    (hlen : 1 ≤ d.nodes.length) : containsD d p o = true := by
  unfold containsD
  obtain ⟨m, hm⟩ : ∃ m, d.nodes.length = m + 1 := ⟨d.nodes.length - 1, by omega⟩
  rw [hm]
  show containsAux d (m + 1 + 1) p o = true
  rw [show containsAux d (m + 1 + 1) p o =
      (decide (p = o) || (childrenOf d p).any fun c => containsAux d (m + 1) c o) from rfl]
  simp only [Bool.or_eq_true, List.any_eq_true]
  exact Or.inr ⟨o, ho, containsAux_self d m o⟩

/-- C8: for every primitive (string or number) description and every
retained text node: when the text node already holds the identical
stringified value, patch returns that same node instance with the store
untouched; otherwise patch allocates a fresh text node (the next store
id, a different instance, holding the stringified value, with the old
node's record intact) and splices it in: when the old node is a direct
child of the container its slot is rewritten to the new node, and when
the container does not contain the old node at all the new node is
appended. -/
theorem patch_primitive_text_path (fuel : Nat) (d : Dom) (p o : Nat) (v : String)
    (vn : VNode)
    (hprim : (match vn with | VNode.vtext _ => true | VNode.vnum _ => true | _ => false) = true)
    (hold : getN d o = some (.dtext v))
    (hp : ∃ t a cs0, getN d p = some (DNode.delem t a cs0)) :
    (v = jsString vn → patch (fuel + 1) d (some p) (some o) vn = some (d, some o)) ∧
    (v ≠ jsString vn →
      ∃ d2, patch (fuel + 1) d (some p) (some o) vn = some (d2, some d.nodes.length) ∧
        o ≠ d.nodes.length ∧
        getN d2 d.nodes.length = some (.dtext (jsString vn)) ∧
        getN d2 o = some (.dtext v) ∧
        (o ∈ childrenOf d p → d.nodes.length ∉ childrenOf d p →
          childrenOf d2 p = (childrenOf d p).map fun x => if x = o then d.nodes.length else x) ∧
        (containsD { d with nodes := d.nodes ++ [DNode.dtext (jsString vn)] } p o = false →
          d.nodes.length ∉ childrenOf d p →
          childrenOf d2 p = childrenOf d p ++ [d.nodes.length])) := by
  obtain ⟨t, a, cs0, hpe⟩ := hp
  have hdispatch : patch (fuel + 1) d (some p) (some o) vn =
      some (patchText d p (some o) (jsString vn)) := by
    cases vn with
    | vtext s => rfl
    | vnum n => rfl
    | vboolP b => simp at hprim
    | vnull => simp at hprim
    | velem t2 a2 h2 c2 => simp at hprim
    | vlist l2 => simp at hprim
  constructor
  · intro heq
    rw [hdispatch]
    simp [patchText, hold, heq]
  · intro hne
    rw [hdispatch]
    have hpt : patchText d p (some o) (jsString vn) = patchTextNew d p (some o) (jsString vn) := by
      simp [patchText, hold, hne]
    have hlt_o : o < d.nodes.length := (List.getElem?_eq_some.mp hold).1
    have hlt_p : p < d.nodes.length := (List.getElem?_eq_some.mp hpe).1
    have hpo : p ≠ o := by
      intro h
      rw [h, hold] at hpe
      cases hpe
    have hchd : childrenOf d p = cs0 := by
      unfold childrenOf
      rw [hpe]
    have hPushO : getN { d with nodes := d.nodes ++ [DNode.dtext (jsString vn)] } o =
        some (.dtext v) := by rw [getN_push_lt d _ o hlt_o]; exact hold
    have hPushP : getN { d with nodes := d.nodes ++ [DNode.dtext (jsString vn)] } p =
        some (DNode.delem t a cs0) := by rw [getN_push_lt d _ p hlt_p]; exact hpe
    have hPushL : getN { d with nodes := d.nodes ++ [DNode.dtext (jsString vn)] }
        d.nodes.length = some (.dtext (jsString vn)) := by
      simp [getN, List.getElem?_concat_length]
    have hchPush : childrenOf { d with nodes := d.nodes ++ [DNode.dtext (jsString vn)] } p =
        childrenOf d p := childrenOf_push_text d (jsString vn) p
    have hform : patchTextNew d p (some o) (jsString vn) =
        (if containsD { d with nodes := d.nodes ++ [DNode.dtext (jsString vn)] } p o then
          (replaceChildD { d with nodes := d.nodes ++ [DNode.dtext (jsString vn)] } p
            d.nodes.length o, some d.nodes.length)
         else
          (appendChildD { d with nodes := d.nodes ++ [DNode.dtext (jsString vn)] } p
            d.nodes.length, some d.nodes.length)) := rfl
    rw [hpt, hform]
    have hDetO : getN (detach { d with nodes := d.nodes ++ [DNode.dtext (jsString vn)] }
        d.nodes.length) o = some (.dtext v) := getN_detach_text _ _ _ _ hPushO
    have hDetP : getN (detach { d with nodes := d.nodes ++ [DNode.dtext (jsString vn)] }
        d.nodes.length) p = some (DNode.delem t a (cs0.filter (fun c => c ≠ d.nodes.length))) := by
      rw [getN_detach, hPushP]
      rfl
    have hDetL : getN (detach { d with nodes := d.nodes ++ [DNode.dtext (jsString vn)] }
        d.nodes.length) d.nodes.length = some (.dtext (jsString vn)) :=
      getN_detach_text _ _ _ _ hPushL
    have hDetCh : childrenOf (detach { d with nodes := d.nodes ++ [DNode.dtext (jsString vn)] }
        d.nodes.length) p = (childrenOf d p).filter (fun c => c ≠ d.nodes.length) := by
      rw [childrenOf_detach, hchPush]
    cases hcont : containsD { d with nodes := d.nodes ++ [DNode.dtext (jsString vn)] } p o with
    | true =>
      rw [if_pos rfl]
      by_cases hmem : o ∈ childrenOf { d with nodes := d.nodes ++ [DNode.dtext (jsString vn)] } p
      · have hrepl : replaceChildD { d with nodes := d.nodes ++ [DNode.dtext (jsString vn)] } p
            d.nodes.length o =
            setChildren (detach { d with nodes := d.nodes ++ [DNode.dtext (jsString vn)] }
              d.nodes.length) p
              ((childrenOf (detach { d with nodes := d.nodes ++ [DNode.dtext (jsString vn)] }
                d.nodes.length) p).map fun x => if x = o then d.nodes.length else x) := by
          unfold replaceChildD
          rw [if_pos hmem]
        refine ⟨_, rfl, by omega, ?_, ?_, ?_, ?_⟩
        · rw [hrepl, getN_setChildren_other _ _ _ _ (show p ≠ d.nodes.length by omega)]
          exact hDetL
        · rw [hrepl, getN_setChildren_other _ _ _ _ hpo]
          exact hDetO
        · intro _ hnid
          rw [hrepl, childrenOf_setChildren_self _ _ _ t a _ hDetP, hDetCh,
            List.filter_eq_self.mpr fun x hx => by
              simp only [decide_eq_true_eq]
              intro hxx
              exact hnid (hxx ▸ hx)]
        · intro hfalse _
          exact Bool.noConfusion hfalse
      · have hrepl : replaceChildD { d with nodes := d.nodes ++ [DNode.dtext (jsString vn)] } p
            d.nodes.length o = { d with nodes := d.nodes ++ [DNode.dtext (jsString vn)] } := by
          unfold replaceChildD
          rw [if_neg hmem]
        refine ⟨_, rfl, by omega, ?_, ?_, ?_, ?_⟩
        · rw [hrepl]; exact hPushL
        · rw [hrepl]; exact hPushO
        · intro hmem2 _
          exact absurd (hchPush ▸ hmem2) hmem
        · intro hfalse _
          exact Bool.noConfusion hfalse
    | false =>
      rw [if_neg Bool.false_ne_true]
      have happ : appendChildD { d with nodes := d.nodes ++ [DNode.dtext (jsString vn)] } p
          d.nodes.length =
          setChildren (detach { d with nodes := d.nodes ++ [DNode.dtext (jsString vn)] }
            d.nodes.length) p
            ((childrenOf (detach { d with nodes := d.nodes ++ [DNode.dtext (jsString vn)] }
              d.nodes.length) p) ++ [d.nodes.length]) := rfl
      refine ⟨_, rfl, by omega, ?_, ?_, ?_, ?_⟩
      · rw [happ, getN_setChildren_other _ _ _ _ (by omega), hDetL]
      · rw [happ, getN_setChildren_other _ _ _ _ hpo, hDetO]
      · intro hmem _
        have hctrue := containsD_child { d with nodes := d.nodes ++ [DNode.dtext (jsString vn)] } p o
          (hchPush ▸ hmem) (by simp)
        exact Bool.noConfusion (hctrue.symm.trans hcont)
      · intro _ hnid
        rw [happ, childrenOf_setChildren_self _ _ _ t a _ hDetP, hDetCh,
          List.filter_eq_self.mpr fun x hx => by
            simp only [decide_eq_true_eq]
            intro hxx
            exact hnid (hxx ▸ hx)]

/-- A container with one retained text node "5" attached, for the C8
witness. -/
def domText5 : Dom := { nodes := [.delem "root" [] [1], .dtext "5"], body := none }

/-- Witness for C8: patching the text "5" onto a retained text node
already holding "5" returns the same node instance with no mutation. -/
theorem patch_primitive_text_path_witness :
    patch 10 domText5 (some 0) (some 1) (.vtext "5") = some (domText5, some 1) :=
  (patch_primitive_text_path 9 domText5 0 1 "5" (.vtext "5") (by decide) (by decide)
    ⟨"root", [], [1], by decide⟩).1 rfl

/-- A keyed list item, as user code would build it through the exported
constructor. -/
def liK (k txt : String) : VNode := Vnode "li" [("key", JVal.vstr k)] (.vtext txt)

/-- The first render: ul with children A(key 1), B(key 2), C(key 3). -/
def ulABC : VNode := Vnode "ul" [] (.vlist [liK "1" "A", liK "2" "B", liK "3" "C"])

/-- The rerender: the same three keyed children in reverse order. -/
def ulCBA : VNode := Vnode "ul" [] (.vlist [liK "3" "C", liK "2" "B", liK "1" "A"])

/-- The retained store after the first render: the ul (id 1) holds the
lis with ids 2, 4, 6, each with its text child. -/
def domABC : Dom :=
  { nodes := [.delem "root" [] [1], .delem "ul" [] [2, 4, 6],
              .delem "li" [("key", "1")] [3], .dtext "A",
              .delem "li" [("key", "2")] [5], .dtext "B",
              .delem "li" [("key", "3")] [7], .dtext "C"], body := none }

/-- The retained store after the reorder rerender: identical nodes, only
the ul's child list is reversed. -/
def domCBA : Dom :=
  { nodes := [.delem "root" [] [1], .delem "ul" [] [6, 4, 2],
              .delem "li" [("key", "1")] [3], .dtext "A",
              .delem "li" [("key", "2")] [5], .dtext "B",
              .delem "li" [("key", "3")] [7], .dtext "C"], body := none }

/-- C2: keyed child reconciliation.  The two leading conjuncts state the
comparison-target rule over all inputs: a child bearing a string key that
is present in the keyed index gets the indexed retained node as target,
at every output position alike (reuse regardless of original position),
while a key miss or an unkeyed child falls back to whatever node occupies
position i of the original snapshot.  The remaining conjuncts run the
spec's acceptance test end to end: rendering [A(1), B(2), C(3)] and
rerendering [C(3), B(2), A(1)] reuses the same ul and the same retained
nodes (B keeps id 4, its record bitwise unchanged), reorders the child
list to [6, 4, 2], and allocates nothing new. -/
theorem keyed_reconciliation_preserves_identity :
    (∀ (c : VNode) (keyed : List (String × Nat)) (oldCh : List Nat) (i j : Nat)
        (k : String) (n : Nat),
        vnodeKey c = some (JVal.vstr k) → mapGet keyed k = some n →
        chooseChildTarget c keyed oldCh i = some n ∧
        chooseChildTarget c keyed oldCh i = chooseChildTarget c keyed oldCh j) ∧
    (∀ (c : VNode) (keyed : List (String × Nat)) (oldCh : List Nat) (i : Nat)
        (k : String),
        vnodeKey c = some (JVal.vstr k) → mapGet keyed k = none →
        chooseChildTarget c keyed oldCh i = oldCh[i]?) ∧
    (∀ (c : VNode) (keyed : List (String × Nat)) (oldCh : List Nat) (i : Nat),
        vnodeKey c = none → chooseChildTarget c keyed oldCh i = oldCh[i]?) ∧
    patch 20 dom0 (some 0) none ulABC = some (domABC, some 1) ∧
    patch 20 domABC (some 0) (some 1) ulCBA = some (domCBA, some 1) ∧
    childrenOf domABC 1 = [2, 4, 6] ∧
    childrenOf domCBA 1 = [6, 4, 2] ∧
    getN domCBA 4 = getN domABC 4 ∧
    domCBA.nodes.length = domABC.nodes.length := by
  refine ⟨?_, ?_, ?_, by decide, by decide, by decide, by decide, by decide, by decide⟩
  · intro c keyed oldCh i j k n hk hm
    constructor <;> simp [chooseChildTarget, hk, hm]
  · intro c keyed oldCh i k hk hm
    simp [chooseChildTarget, hk, hm]
  · intro c keyed oldCh i hk
    simp [chooseChildTarget, hk]

/-- Witness for C2: the target rule applied at a concrete keyed child, a
concrete index, and two different positions. -/
theorem keyed_reconciliation_preserves_identity_witness :
    chooseChildTarget (liK "2" "B") [("2", 4)] [9] 0 = some 4 ∧
    chooseChildTarget (liK "2" "B") [("2", 4)] [9] 0 =
      chooseChildTarget (liK "2" "B") [("2", 4)] [9] 5 :=
  keyed_reconciliation_preserves_identity.1 (liK "2" "B") [("2", 4)] [9] 0 5 "2" 4
    (by decide) (by decide)

end ZoneJS
